import Mathlib

/-!
Verification of the vinylseek batch-fetch pipeline.

This file gives a shallow embedding of the pipeline's core operations
(`removeDuplicates`, `sortByPrice`, `trimResults`, `fetchWithRetry`, the
rate-budgeted wave loop of `fetchMarketplaceListingData`, the Bandcamp
adapter `fetchBandcampAlbumDetails`, the orchestration in `main`, and the
progress-event stream) and proves or refutes the specified properties.

Network calls are modelled by explicit oracles (functions giving each
attempt's outcome), and the JavaScript globals are modelled by explicit
state passing.  Prices are rationals; identifiers are strings.
-/

/-- Normalized listing record, the shape pushed into `listingData`
(fields `name`, `price`, `condition`, `sleeve_condition`, `link`, `image`). -/
structure Listing where
  name : String
  price : ℚ
  condition : String
  sleeve_condition : String
  link : String
  image : Option String
deriving DecidableEq, Repr

/-- One step of the `reduce` in `removeDuplicates`: look for the first
accumulator entry with the same `name`; if found and the current record is
strictly cheaper, replace that entry in place; if found and not cheaper,
keep the accumulator; otherwise push the current record at the end. -/
def insertListing (acc : List Listing) (current : Listing) : List Listing :=
  match acc with
  | [] => [current]
  | item :: rest =>
    if item.name = current.name then
      (if current.price < item.price then current else item) :: rest
    else
      item :: insertListing rest current

/-- `removeDuplicates` from the source: `listingData.reduce(..., [])`. -/
def removeDuplicates (listingData : List Listing) : List Listing :=
  listingData.foldl insertListing []

/-- The comparator of `sortByPrice` (`(a, b) => a.price - b.price`),
as the corresponding non-strict order on records. -/
def ple (a b : Listing) : Prop := a.price ≤ b.price

instance : DecidableRel ple := fun a b => inferInstanceAs (Decidable (a.price ≤ b.price))

instance : IsTotal Listing ple := ⟨fun a b => le_total a.price b.price⟩

instance : IsTrans Listing ple := ⟨fun _ _ _ h h2 => le_trans h h2⟩

/-- The strict version of the price order, used to compare sorted outputs. -/
def plt (a b : Listing) : Prop := a.price < b.price

instance : IsAntisymm Listing plt :=
  ⟨fun _ _ h h2 => absurd (lt_trans h h2) (lt_irrefl _)⟩

/-- `sortByPrice` from the source: `listingData.sort((a, b) => a.price - b.price)`.
An ECMAScript `Array.prototype.sort` is required to be stable and to produce a
list ordered by the comparator, so it is embedded as a stable insertion sort. -/
def sortByPrice (listingData : List Listing) : List Listing :=
  List.insertionSort ple listingData

/-- `trimResults` from the source: `uniqueListings.slice(0, 3)`. -/
def trimResults (uniqueListings : List Listing) : List Listing :=
  uniqueListings.take 3

/-- The ranking part of `main` exactly as the code runs it:
sort the full accumulated list, then dedupe, then take the first three. -/
def rankPipeline (listingData : List Listing) : List Listing :=
  trimResults (removeDuplicates (sortByPrice listingData))

/-- Modelled from the spec: the externally described order of operations,
"deduplicated, and top-3 selection happens after dedup" — dedupe first,
then sort by price, then take the cheapest three. -/
def specDedupeThenRank (listingData : List Listing) : List Listing :=
  (sortByPrice (removeDuplicates listingData)).take 3

/-- The names of a listing list in first-occurrence order
(the order the dedupe accumulator assigns positions in). -/
def firstOccNames (l : List Listing) : List String :=
  l.foldl (fun acc x => if x.name ∈ acc then acc else acc ++ [x.name]) []

/-- First element of a group that realizes the group's minimum price. -/
def firstMinOf (g : List Listing) : Option Listing :=
  g.find? (fun x => g.all (fun y => decide (x.price ≤ y.price)))

/-! ### Generic helper lemmas about `List.find?` -/

theorem find?_append_none {α : Type} {p : α → Bool} {l₁ l₂ : List α}
    (h : ∀ x ∈ l₁, p x = false) :
    List.find? p (l₁ ++ l₂) = List.find? p l₂ := by
  induction l₁ with
  | nil => simp
  | cons a l ih =>
    have ha : p a = false := h a (by simp)
    simp only [List.cons_append]
    rw [List.find?_cons_of_neg _ (by simp [ha])]
    exact ih fun x hx => h x (by simp [hx])

theorem find?_middle {α : Type} {p : α → Bool} {l₁ l₂ : List α} {x : α}
    (h1 : ∀ z ∈ l₁, p z = false) (h2 : p x = true) :
    List.find? p (l₁ ++ x :: l₂) = some x := by
  rw [find?_append_none h1, List.find?_cons_of_pos _ h2]

theorem find?_some_decomp {α : Type} {p : α → Bool} {l : List α} {x : α}
    (h : l.find? p = some x) :
    p x = true ∧ ∃ s t, l = s ++ x :: t ∧ ∀ z ∈ s, p z = false := by
  induction l with
  | nil => simp at h
  | cons a l ih =>
    by_cases pa : p a = true
    · rw [List.find?_cons_of_pos _ pa] at h
      cases h
      exact ⟨pa, [], l, by simp, by simp⟩
    · rw [List.find?_cons_of_neg _ pa] at h
      obtain ⟨px, s, t, hl, hs⟩ := ih h
      refine ⟨px, a :: s, t, by simp [hl], ?_⟩
      intro z hz
      rcases List.mem_cons.mp hz with rfl | hz
      · exact Bool.eq_false_iff.mpr pa
      · exact hs z hz

theorem find?_append_some {α : Type} {p : α → Bool} {l₁ l₂ : List α} {x : α}
    (h : List.find? p l₁ = some x) :
    List.find? p (l₁ ++ l₂) = some x := by
  obtain ⟨px, s, t, rfl, hs⟩ := find?_some_decomp h
  rw [List.append_assoc, List.cons_append]
  exact find?_middle hs px

theorem find?_append_cons_of_neg {α : Type} {p : α → Bool} {s t : List α} {a : α}
    (ha : p a = false) :
    List.find? p (s ++ a :: t) = List.find? p (s ++ t) := by
  induction s with
  | nil => simpa using List.find?_cons_of_neg _ (by simp [ha])
  | cons b s ih =>
    by_cases pb : p b = true
    · simp only [List.cons_append]
      rw [List.find?_cons_of_pos _ pb, List.find?_cons_of_pos _ pb]
    · simp only [List.cons_append]
      rw [List.find?_cons_of_neg _ pb, List.find?_cons_of_neg _ pb]
      exact ih

/-! ### Structure of a single `insertListing` step -/

theorem insertListing_cases (acc : List Listing) (b : Listing) :
    ((∀ x ∈ acc, x.name ≠ b.name) ∧ insertListing acc b = acc ++ [b])
    ∨ (∃ s x t, acc = s ++ x :: t ∧ (∀ z ∈ s, z.name ≠ b.name) ∧ x.name = b.name ∧
        insertListing acc b = s ++ (if b.price < x.price then b else x) :: t) := by
  induction acc with
  | nil => exact Or.inl ⟨by simp, by simp [insertListing]⟩
  | cons a acc ih =>
    by_cases ha : a.name = b.name
    · exact Or.inr ⟨[], a, acc, by simp, by simp, ha, by simp [insertListing, ha]⟩
    · rcases ih with ⟨hall, heq⟩ | ⟨s, x, t, hacc, hs, hx, heq⟩
      · refine Or.inl ⟨?_, ?_⟩
        · intro z hz
          rcases List.mem_cons.mp hz with rfl | hz
          · exact ha
          · exact hall z hz
        · simp [insertListing, ha, heq]
      · refine Or.inr ⟨a :: s, x, t, by simp [hacc], ?_, hx, ?_⟩
        · intro z hz
          rcases List.mem_cons.mp hz with rfl | hz
          · exact ha
          · exact hs z hz
        · have hstep : insertListing (a :: acc) b = a :: insertListing acc b := by
            simp [insertListing, ha]
          rw [hstep, heq]
          simp

theorem removeDuplicates_concat (l : List Listing) (b : Listing) :
    removeDuplicates (l ++ [b]) = insertListing (removeDuplicates l) b := by
  simp [removeDuplicates, List.foldl_append]

theorem firstOccNames_concat (l : List Listing) (b : Listing) :
    firstOccNames (l ++ [b]) =
      if b.name ∈ firstOccNames l then firstOccNames l
      else firstOccNames l ++ [b.name] := by
  simp [firstOccNames, List.foldl_append]

/-! ### Names and membership of the dedupe output -/

theorem mem_firstOccNames {l : List Listing} {n : String} :
    n ∈ firstOccNames l ↔ ∃ x ∈ l, x.name = n := by
  induction l using List.reverseRecOn with
  | nil => simp [firstOccNames]
  | append_singleton l b ih =>
    rw [firstOccNames_concat]
    by_cases hb : b.name ∈ firstOccNames l
    · rw [if_pos hb, ih]
      constructor
      · rintro ⟨x, hx, hxn⟩
        exact ⟨x, by simp [hx], hxn⟩
      · rintro ⟨x, hx, hxn⟩
        rcases List.mem_append.mp hx with hx | hx
        · exact ⟨x, hx, hxn⟩
        · have hxb : x = b := by simpa using hx
          subst hxb
          subst hxn
          exact ih.mp hb
    · rw [if_neg hb, List.mem_append, ih]
      constructor
      · rintro (⟨x, hx, hxn⟩ | hn)
        · exact ⟨x, by simp [hx], hxn⟩
        · have hn : n = b.name := by simpa using hn
          exact ⟨b, by simp, hn.symm⟩
      · rintro ⟨x, hx, hxn⟩
        rcases List.mem_append.mp hx with hx | hx
        · exact Or.inl ⟨x, hx, hxn⟩
        · have hxb : x = b := by simpa using hx
          subst hxb
          exact Or.inr (by simp [hxn])

theorem nodup_firstOccNames (l : List Listing) : (firstOccNames l).Nodup := by
  induction l using List.reverseRecOn with
  | nil => simp [firstOccNames]
  | append_singleton l b ih =>
    rw [firstOccNames_concat]
    by_cases hb : b.name ∈ firstOccNames l
    · rwa [if_pos hb]
    · rw [if_neg hb]
      exact List.Nodup.append ih (by simp) (by simp [List.disjoint_singleton, hb])

theorem names_dedupe (l : List Listing) :
    (removeDuplicates l).map Listing.name = firstOccNames l := by
  induction l using List.reverseRecOn with
  | nil => simp [removeDuplicates, firstOccNames]
  | append_singleton l b ih =>
    rw [removeDuplicates_concat, firstOccNames_concat]
    rcases insertListing_cases (removeDuplicates l) b with ⟨hall, heq⟩ |
      ⟨s, x, t, hacc, hs, hx, heq⟩
    · have hb : b.name ∉ firstOccNames l := by
        rw [← ih]
        intro hmem
        obtain ⟨z, hz, hzn⟩ := List.mem_map.mp hmem
        exact hall z hz hzn
      rw [heq, if_neg hb, ← ih]
      simp
    · have hb : b.name ∈ firstOccNames l := by
        rw [← ih, hacc]
        exact List.mem_map.mpr ⟨x, by simp, hx⟩
      rw [heq, if_pos hb, ← ih, hacc]
      have hxn : (if b.price < x.price then b else x).name = x.name := by
        split <;> simp [hx]
      simp [hxn]

theorem nodup_names_dedupe (l : List Listing) :
    ((removeDuplicates l).map Listing.name).Nodup := by
  rw [names_dedupe]
  exact nodup_firstOccNames l

theorem removeDuplicates_subset (l : List Listing) :
    ∀ x ∈ removeDuplicates l, x ∈ l := by
  induction l using List.reverseRecOn with
  | nil => simp [removeDuplicates]
  | append_singleton l b ih =>
    intro x hx
    rw [removeDuplicates_concat] at hx
    rcases insertListing_cases (removeDuplicates l) b with ⟨hall, heq⟩ |
      ⟨s, x₀, t, hacc, hs, hx₀, heq⟩
    · rw [heq] at hx
      rcases List.mem_append.mp hx with hx | hx
      · exact List.mem_append.mpr (Or.inl (ih x hx))
      · have hxb : x = b := by simpa using hx
        subst hxb
        simp
    · have hmem : ∀ z, z ∈ s ++ x₀ :: t → z ∈ l :=
        fun z hz => ih z (by rw [hacc]; exact hz)
      by_cases hlt : b.price < x₀.price
      · rw [heq, if_pos hlt] at hx
        rcases List.mem_append.mp hx with hxs | hx
        · exact List.mem_append.mpr (Or.inl (hmem x (by simp [hxs])))
        · rcases List.mem_cons.mp hx with rfl | hx
          · simp
          · exact List.mem_append.mpr (Or.inl (hmem x (by simp [hx])))
      · rw [heq, if_neg hlt] at hx
        exact List.mem_append.mpr (Or.inl (hmem x hx))

theorem min_removeDuplicates (l : List Listing) :
    ∀ x ∈ removeDuplicates l, ∀ y ∈ l, y.name = x.name → x.price ≤ y.price := by
  induction l using List.reverseRecOn with
  | nil => simp [removeDuplicates]
  | append_singleton l b ih =>
    intro x hx y hy hyn
    rw [removeDuplicates_concat] at hx
    rcases insertListing_cases (removeDuplicates l) b with ⟨hall, heq⟩ |
      ⟨s, x₀, t, hacc, hs, hx₀, heq⟩
    · rw [heq] at hx
      rcases List.mem_append.mp hx with hx | hx
      · rcases List.mem_append.mp hy with hy | hy
        · exact ih x hx y hy hyn
        · have hyb : y = b := by simpa using hy
          exact absurd (by rw [← hyn, hyb]) (hall x hx)
      · have hxb : x = b := by simpa using hx
        rcases List.mem_append.mp hy with hy | hy
        · exfalso
          have hmm : b.name ∈ firstOccNames l :=
            mem_firstOccNames.mpr ⟨y, hy, by rw [hyn, hxb]⟩
          rw [← names_dedupe] at hmm
          obtain ⟨z, hz, hzn⟩ := List.mem_map.mp hmm
          exact hall z hz hzn
        · have hyb : y = b := by simpa using hy
          exact le_of_eq (by rw [hxb, hyb])
    · have hmem₀ : x₀ ∈ removeDuplicates l := by rw [hacc]; simp
      have hnd := nodup_names_dedupe l
      rw [hacc] at hnd
      simp only [List.map_append, List.map_cons] at hnd
      have hnames : x₀.name ∉ (s.map Listing.name ++ t.map Listing.name) :=
        (List.nodup_cons.mp (List.nodup_middle.mp hnd)).1
      have hside : ∀ z, z ∈ s ++ t → z.name ≠ b.name := by
        intro z hz hzb
        apply hnames
        rw [← List.map_append]
        exact List.mem_map.mpr ⟨z, hz, by rw [hzb, hx₀]⟩
      have hsideMem : ∀ z, z ∈ s ++ t → z ∈ removeDuplicates l := by
        intro z hz
        rw [hacc]
        rcases List.mem_append.mp hz with hz | hz
        · simp [hz]
        · simp [hz]
      have hSideCase : x ∈ s ++ t → x.price ≤ y.price := by
        intro hxs
        rcases List.mem_append.mp hy with hy | hy
        · exact ih x (hsideMem x hxs) y hy hyn
        · have hyb : y = b := by simpa using hy
          exact absurd (by rw [← hyn, hyb]) (hside x hxs)
      by_cases hlt : b.price < x₀.price
      · rw [heq, if_pos hlt] at hx
        rcases List.mem_append.mp hx with hxs | hx
        · exact hSideCase (List.mem_append.mpr (Or.inl hxs))
        · rcases List.mem_cons.mp hx with hxe | hx
          · rcases List.mem_append.mp hy with hy | hy
            · have hle := ih x₀ hmem₀ y hy (by rw [hyn, hxe, ← hx₀])
              rw [hxe]
              exact le_of_lt (lt_of_lt_of_le hlt hle)
            · have hyb : y = b := by simpa using hy
              exact le_of_eq (by rw [hxe, hyb])
          · exact hSideCase (List.mem_append.mpr (Or.inr hx))
      · rw [heq, if_neg hlt] at hx
        rcases List.mem_append.mp hx with hxs | hx
        · exact hSideCase (List.mem_append.mpr (Or.inl hxs))
        · rcases List.mem_cons.mp hx with hxe | hx
          · rcases List.mem_append.mp hy with hy | hy
            · exact ih x (by rw [hxe]; exact hmem₀) y hy hyn
            · have hyb : y = b := by simpa using hy
              rw [hxe, hyb]
              exact le_of_not_lt hlt
          · exact hSideCase (List.mem_append.mpr (Or.inr hx))

/-! ### Which record the dedupe keeps: the first minimum of each name group -/

theorem firstMinOf_singleton (b : Listing) : firstMinOf [b] = some b := by
  unfold firstMinOf
  apply List.find?_cons_of_pos
  simp

theorem firstMinOf_concat_lt {g : List Listing} {x b : Listing}
    (h : firstMinOf g = some x) (hlt : b.price < x.price) :
    firstMinOf (g ++ [b]) = some b := by
  have hmin : ∀ y ∈ g, x.price ≤ y.price := by
    have hp := (find?_some_decomp h).1
    intro y hy
    exact of_decide_eq_true (List.all_eq_true.mp hp y hy)
  unfold firstMinOf
  have hzf : ∀ z ∈ g, ((g ++ [b]).all (fun y => decide (z.price ≤ y.price))) = false := by
    intro z hz
    apply Bool.eq_false_iff.mpr
    intro hall
    have hzb : z.price ≤ b.price :=
      of_decide_eq_true (List.all_eq_true.mp hall b (by simp))
    exact absurd (le_trans (hmin z hz) hzb) (not_le.mpr hlt)
  rw [find?_append_none hzf]
  apply List.find?_cons_of_pos
  apply List.all_eq_true.mpr
  intro y hy
  apply decide_eq_true
  rcases List.mem_append.mp hy with hy | hy
  · exact le_of_lt (lt_of_lt_of_le hlt (hmin y hy))
  · have hyb : y = b := by simpa using hy
    exact le_of_eq (by rw [hyb])

theorem firstMinOf_concat_le {g : List Listing} {x b : Listing}
    (h : firstMinOf g = some x) (hle : x.price ≤ b.price) :
    firstMinOf (g ++ [b]) = some x := by
  obtain ⟨hpx, s, t, hg, hs⟩ := find?_some_decomp h
  unfold firstMinOf
  apply find?_append_some
  subst hg
  apply find?_middle
  · intro z hz
    have hzf : (s ++ x :: t).all (fun y => decide (z.price ≤ y.price)) = false := hs z hz
    show ((s ++ x :: t) ++ [b]).all (fun y => decide (z.price ≤ y.price)) = false
    rw [List.all_append, hzf, Bool.false_and]
  · have hpx2 : (s ++ x :: t).all (fun y => decide (x.price ≤ y.price)) = true := hpx
    show ((s ++ x :: t) ++ [b]).all (fun y => decide (x.price ≤ y.price)) = true
    rw [List.all_append, hpx2, Bool.true_and]
    simp [hle]

theorem find?_dedupe (l : List Listing) (n : String) :
    (removeDuplicates l).find? (fun z => z.name == n)
      = firstMinOf (l.filter (fun z => z.name == n)) := by
  induction l using List.reverseRecOn with
  | nil => simp [removeDuplicates, firstMinOf]
  | append_singleton l b ih =>
    rw [removeDuplicates_concat, List.filter_append]
    rcases insertListing_cases (removeDuplicates l) b with ⟨hall, heq⟩ |
      ⟨s, x₀, t, hacc, hs, hx₀, heq⟩
    · rw [heq]
      by_cases hn : b.name = n
      · have hlnone : ∀ z ∈ l, ((z.name == n) : Bool) = false := by
          intro z hz
          apply Bool.eq_false_iff.mpr
          intro hbeq
          have hzn : z.name = n := by simpa using hbeq
          have hmm : b.name ∈ firstOccNames l :=
            mem_firstOccNames.mpr ⟨z, hz, by rw [hzn, hn]⟩
          rw [← names_dedupe] at hmm
          obtain ⟨w, hw, hwn⟩ := List.mem_map.mp hmm
          exact hall w hw hwn
        have hfilter : l.filter (fun z => z.name == n) = [] := by
          apply List.filter_eq_nil_iff.mpr
          intro a ha
          simp [hlnone a ha]
        have hdnone : ∀ z ∈ removeDuplicates l, ((z.name == n) : Bool) = false :=
          fun z hz => hlnone z (removeDuplicates_subset l z hz)
        rw [find?_append_none hdnone, hfilter, List.nil_append]
        rw [List.find?_cons_of_pos _ (by simp [hn])]
        rw [show List.filter (fun z => z.name == n) [b] = [b] by simp [hn]]
        rw [firstMinOf_singleton]
      · have hbf : ((b.name == n) : Bool) = false := by simp [hn]
        rw [show List.filter (fun z => z.name == n) [b] = [] by simp [hn], List.append_nil]
        rw [@find?_append_cons_of_neg _ (fun z => z.name == n) (removeDuplicates l) [] b hbf,
          List.append_nil]
        exact ih
    · rw [heq]
      have hfind₀ : (removeDuplicates l).find? (fun z => z.name == b.name) = some x₀ := by
        rw [hacc]
        apply find?_middle
        · intro z hz
          simp [hs z hz]
        · simp [hx₀]
      by_cases hn : b.name = n
      · subst hn
        have hfm : firstMinOf (l.filter (fun z => z.name == b.name)) = some x₀ := by
          rw [← ih]
          exact hfind₀
        rw [show List.filter (fun z => z.name == b.name) [b] = [b] by simp]
        by_cases hlt : b.price < x₀.price
        · rw [if_pos hlt, firstMinOf_concat_lt hfm hlt]
          apply find?_middle
          · intro z hz
            simp [hs z hz]
          · simp
        · rw [if_neg hlt, firstMinOf_concat_le hfm (le_of_not_lt hlt)]
          apply find?_middle
          · intro z hz
            simp [hs z hz]
          · simp [hx₀]
      · have hx₀f : ((x₀.name == n) : Bool) = false := by simp [hx₀, hn]
        have hxf : (((if b.price < x₀.price then b else x₀).name == n) : Bool) = false := by
          split
          · simp [hn]
          · simp [hx₀, hn]
        rw [show List.filter (fun z => z.name == n) [b] = [] by simp [hn], List.append_nil]
        rw [@find?_append_cons_of_neg _ (fun z => z.name == n) s t _ hxf, ← ih, hacc,
          @find?_append_cons_of_neg _ (fun z => z.name == n) s t x₀ hx₀f]

/-! ### Dedupe on sorted input, and order-insensitivity under distinct prices -/

theorem removeDuplicates_sublist_of_sorted {l : List Listing}
    (h : l.Pairwise ple) : (removeDuplicates l).Sublist l := by
  induction l using List.reverseRecOn with
  | nil => simp [removeDuplicates]
  | append_singleton l b ih =>
    rw [removeDuplicates_concat]
    have hl : l.Pairwise ple := (List.pairwise_append.mp h).1
    have hlb : ∀ z ∈ l, ple z b := by
      intro z hz
      exact (List.pairwise_append.mp h).2.2 z hz b (by simp)
    rcases insertListing_cases (removeDuplicates l) b with ⟨hall, heq⟩ |
      ⟨s, x₀, t, hacc, hs, hx₀, heq⟩
    · rw [heq]
      exact (ih hl).append (List.Sublist.refl [b])
    · have hx₀mem : x₀ ∈ l := removeDuplicates_subset l x₀ (by rw [hacc]; simp)
      have hble : x₀.price ≤ b.price := hlb x₀ hx₀mem
      rw [heq, if_neg (not_lt.mpr hble), ← hacc]
      exact (ih hl).trans (List.sublist_append_left l [b])

theorem price_inj_on {l : List Listing} (hp : (l.map Listing.price).Nodup) :
    ∀ x ∈ l, ∀ y ∈ l, x.price = y.price → x = y := by
  intro x hx y hy hxy
  exact List.inj_on_of_nodup_map hp hx hy hxy

theorem mem_removeDuplicates_iff {l : List Listing} (hp : (l.map Listing.price).Nodup)
    {x : Listing} :
    x ∈ removeDuplicates l ↔ x ∈ l ∧ ∀ y ∈ l, y.name = x.name → x.price ≤ y.price := by
  constructor
  · intro hx
    exact ⟨removeDuplicates_subset l x hx, min_removeDuplicates l x hx⟩
  · rintro ⟨hxl, hmin⟩
    have hnm : x.name ∈ firstOccNames l := mem_firstOccNames.mpr ⟨x, hxl, rfl⟩
    rw [← names_dedupe] at hnm
    obtain ⟨k, hk, hkn⟩ := List.mem_map.mp hnm
    have hkl : k ∈ l := removeDuplicates_subset l k hk
    have h1 : k.price ≤ x.price := min_removeDuplicates l k hk x hxl hkn.symm
    have h2 : x.price ≤ k.price := hmin k hkl hkn
    have hxk : x = k := price_inj_on hp x hxl k hkl (le_antisymm h2 h1)
    rw [hxk]
    exact hk

theorem nodup_removeDuplicates (l : List Listing) : (removeDuplicates l).Nodup :=
  List.Nodup.of_map Listing.name (nodup_names_dedupe l)

theorem nodup_prices_removeDuplicates {l : List Listing}
    (hp : (l.map Listing.price).Nodup) :
    ((removeDuplicates l).map Listing.price).Nodup := by
  have hnd : (removeDuplicates l).Pairwise (fun a b => a ≠ b) := nodup_removeDuplicates l
  have hne : (removeDuplicates l).Pairwise (fun a b => a.price ≠ b.price) := by
    apply List.Pairwise.imp_of_mem ?_ hnd
    intro a b ha hb hab hpeq
    exact hab (price_inj_on hp a (removeDuplicates_subset l a ha) b
      (removeDuplicates_subset l b hb) hpeq)
  exact List.pairwise_map.mpr hne

theorem removeDuplicates_perm_of_perm {l₁ l₂ : List Listing} (hperm : l₁.Perm l₂)
    (hp : (l₂.map Listing.price).Nodup) :
    (removeDuplicates l₁).Perm (removeDuplicates l₂) := by
  have hp₁ : (l₁.map Listing.price).Nodup := ((hperm.map Listing.price).nodup_iff).mpr hp
  apply List.perm_of_nodup_nodup_toFinset_eq (nodup_removeDuplicates l₁)
    (nodup_removeDuplicates l₂)
  ext a
  simp only [List.mem_toFinset]
  rw [mem_removeDuplicates_iff hp₁, mem_removeDuplicates_iff hp]
  constructor
  · rintro ⟨ha, hmin⟩
    exact ⟨hperm.mem_iff.mp ha, fun y hy hyn => hmin y (hperm.mem_iff.mpr hy) hyn⟩
  · rintro ⟨ha, hmin⟩
    exact ⟨hperm.mem_iff.mpr ha, fun y hy hyn => hmin y (hperm.mem_iff.mp hy) hyn⟩

theorem pairwise_plt_of_sorted {m : List Listing} (hs : m.Pairwise ple)
    (hp : (m.map Listing.price).Nodup) : m.Pairwise plt := by
  have hne : m.Pairwise (fun a b => a.price ≠ b.price) := List.pairwise_map.mp hp
  exact (hs.and hne).imp (fun h => lt_of_le_of_ne h.1 h.2)

theorem rankPipeline_eq_spec {l : List Listing} (hp : (l.map Listing.price).Nodup) :
    rankPipeline l = specDedupeThenRank l := by
  have hsortperm : (sortByPrice l).Perm l := List.perm_insertionSort ple l
  have hpsort : ((sortByPrice l).map Listing.price).Nodup :=
    ((hsortperm.map Listing.price).nodup_iff).mpr hp
  have hsorted : (sortByPrice l).Pairwise ple := List.sorted_insertionSort ple l
  have hXsub : (removeDuplicates (sortByPrice l)).Sublist (sortByPrice l) :=
    removeDuplicates_sublist_of_sorted hsorted
  have hXsorted : (removeDuplicates (sortByPrice l)).Pairwise ple :=
    List.Pairwise.sublist hXsub hsorted
  have hXprices : ((removeDuplicates (sortByPrice l)).map Listing.price).Nodup :=
    nodup_prices_removeDuplicates hpsort
  have hXperm : (removeDuplicates (sortByPrice l)).Perm (removeDuplicates l) :=
    removeDuplicates_perm_of_perm hsortperm hp
  have hYperm : (sortByPrice (removeDuplicates l)).Perm (removeDuplicates l) :=
    List.perm_insertionSort ple (removeDuplicates l)
  have hYsorted : (sortByPrice (removeDuplicates l)).Pairwise ple :=
    List.sorted_insertionSort ple (removeDuplicates l)
  have hDprices : ((removeDuplicates l).map Listing.price).Nodup :=
    nodup_prices_removeDuplicates hp
  have hYprices : ((sortByPrice (removeDuplicates l)).map Listing.price).Nodup :=
    ((hYperm.map Listing.price).nodup_iff).mpr hDprices
  have hXY : (removeDuplicates (sortByPrice l)).Perm (sortByPrice (removeDuplicates l)) :=
    hXperm.trans hYperm.symm
  have heq : removeDuplicates (sortByPrice l) = sortByPrice (removeDuplicates l) :=
    List.eq_of_perm_of_sorted hXY (pairwise_plt_of_sorted hXsorted hXprices)
      (pairwise_plt_of_sorted hYsorted hYprices)
  unfold rankPipeline specDedupeThenRank trimResults
  rw [heq]

/-! ### Concrete listing fixtures used in scenario checks -/

def abbey2500 : Listing := ⟨"Abbey Road", 25, "VG+", "VG+", "listing-1", none⟩

def abbey1999 : Listing := ⟨"Abbey Road", 1999/100, "VG", "VG", "listing-2", none⟩

def tieA : Listing := ⟨"Abbey Road", 20, "M", "M", "tie-1", none⟩

def tieB : Listing := ⟨"Abbey Road", 20, "VG", "VG", "tie-2", none⟩

def exA : Listing := ⟨"X", 5, "c", "c", "u", none⟩

def exB : Listing := ⟨"Y", 3, "c", "c", "u", none⟩

def exC : Listing := ⟨"Z", 3, "c", "c", "u", none⟩

def exD : Listing := ⟨"W", 3, "c", "c", "u", none⟩

def exE : Listing := ⟨"X", 3, "c", "c", "u", none⟩

def exF : Listing := ⟨"X", 4, "c", "c", "u", none⟩

/-- C3: for every input list, the dedupe output contains no two entries with
equal name, and every input record is dominated by a kept record of the same
name with price ≤ its price (so the record kept for a name is at most every
discarded same-name record's price), regardless of input order; in
particular two "Abbey Road" listings priced 25.00 and 19.99 dedupe to the
19.99 record. -/
theorem C3_dedupe_min_per_name (l : List Listing) :
    ((removeDuplicates l).map Listing.name).Nodup ∧
    (∀ y ∈ l, ∃ x ∈ removeDuplicates l, x.name = y.name ∧ x.price ≤ y.price) ∧
    removeDuplicates [abbey2500, abbey1999] = [abbey1999] := by
  refine ⟨nodup_names_dedupe l, ?_,
    by norm_num [removeDuplicates, insertListing, abbey2500, abbey1999]⟩
  intro y hy
  have hnm : y.name ∈ firstOccNames l := mem_firstOccNames.mpr ⟨y, hy, rfl⟩
  rw [← names_dedupe] at hnm
  obtain ⟨x, hx, hxn⟩ := List.mem_map.mp hnm
  exact ⟨x, hx, hxn, min_removeDuplicates l x hx y hy hxn.symm⟩

/-- Witness for C3: applied to the Abbey Road scenario list, with the
discarded 25.00 record dominated by the kept record. -/
theorem C3_dedupe_min_per_name_witness :
    ∃ x ∈ removeDuplicates [abbey2500, abbey1999],
      x.name = abbey2500.name ∧ x.price ≤ abbey2500.price :=
  (C3_dedupe_min_per_name [abbey2500, abbey1999]).2.1 abbey2500 (List.mem_cons_self _ _)

/-- C10: the dedupe output's order is the input's first-occurrence order of
names, and the record kept for each name is the first record of that name's
group achieving the group's minimum price — hence on an exact price tie the
first-encountered record is kept, as the concrete tie check shows. -/
theorem C10_dedupe_order_and_ties (l : List Listing) (n : String) :
    (removeDuplicates l).map Listing.name = firstOccNames l ∧
    (removeDuplicates l).find? (fun z => z.name == n)
      = firstMinOf (l.filter (fun z => z.name == n)) ∧
    removeDuplicates [tieA, tieB] = [tieA] :=
  ⟨names_dedupe l, find?_dedupe l n, by decide⟩

/-- C4 counterexample: with cross-name price ties, the code's
sort-then-dedupe-then-take-3 result differs from dedupe-then-rank — here it
even selects a different set of names. -/
theorem C4_order_counterexample :
    rankPipeline [exA, exB, exC, exD, exE]
      ≠ specDedupeThenRank [exA, exB, exC, exD, exE] := by decide

/-- C4 (amended): the final result always has length at most 3 and is
non-decreasing by price; and whenever no two accumulated listings share a
price, the code's sort-then-dedupe result is observably equivalent to
dedupe-then-rank.  (With cross-name price ties the two can differ — see the
counterexample.) -/
theorem C4_rank_shape_and_equiv (l : List Listing) :
    (rankPipeline l).length ≤ 3 ∧ (rankPipeline l).Pairwise ple ∧
    ((l.map Listing.price).Nodup → rankPipeline l = specDedupeThenRank l) := by
  refine ⟨?_, ?_, rankPipeline_eq_spec⟩
  · unfold rankPipeline trimResults
    rw [List.length_take]
    exact min_le_left _ _
  · have hsorted : (sortByPrice l).Pairwise ple := List.sorted_insertionSort ple l
    have hXsorted : (removeDuplicates (sortByPrice l)).Pairwise ple :=
      List.Pairwise.sublist (removeDuplicates_sublist_of_sorted hsorted) hsorted
    exact List.Pairwise.sublist (List.take_sublist 3 _) hXsorted

/-- Witness for C4: a concrete list with pairwise-distinct prices on which
the two operation orders agree. -/
theorem C4_rank_shape_and_equiv_witness :
    ([exA, exB, exF].map Listing.price).Nodup ∧
    rankPipeline [exA, exB, exF] = specDedupeThenRank [exA, exB, exF] :=
  ⟨by decide, (C4_rank_shape_and_equiv [exA, exB, exF]).2.2 (by decide)⟩

/-! ### Rate-budgeted batch fetcher (`fetchMarketplaceListingData`) -/

/-- `maxBatchSize` from the source (60). -/
def maxBatchSize : Nat := 60

/-- `batchSize = Math.min(rateLimitRemaining, maxBatchSize)`. -/
def waveBatchSize (remaining : Nat) : Nat := min remaining maxBatchSize

/-- The identifiers launched by one wave's batch:
`marketplaceIDs.slice(i, i + batchSize)`. -/
def waveBatch (ids : List String) (i remaining : Nat) : List String :=
  (ids.drop i).take (waveBatchSize remaining)

/-- All external calls (at the batch level) of one wave: the probe fetch for
`marketplaceIDs[i]` followed by the batch — which fetches index `i` again
rather than re-using the probe's response. -/
def waveFetches (ids : List String) (i remaining : Nat) : List String :=
  ids.getD i "" :: waveBatch ids i remaining

/-- The wave loop of `fetchMarketplaceListingData`: while `i <
marketplaceIDs.length`, observe the next rate budget from the probe's
headers, slice a batch of `min(remaining, 60)` and advance the cursor by
that batch size.  Given the finite sequence of observed budgets it returns
the per-wave identifier slices and the final cursor value. -/
def runWaves (ids : List String) : List Nat → Nat → List (List String) × Nat
  | [], i => ([], i)
  | b :: bs, i =>
    if i < ids.length then
      let rest := runWaves ids bs (i + waveBatchSize b)
      (waveBatch ids i b :: rest.1, rest.2)
    else ([], i)

theorem getD_of_drop_cons {α : Type} :
    ∀ (l : List α) (i : Nat) (a : α) (as : List α),
      l.drop i = a :: as → ∀ d, l.getD i d = a := by
  intro l
  induction l with
  | nil =>
    intro i a as h d
    simp at h
  | cons x xs ih =>
    intro i a as h d
    cases i with
    | zero =>
      simp only [List.drop_zero] at h
      cases h
      rfl
    | succ n =>
      simp only [List.drop_succ_cons] at h
      simpa [List.getD_cons_succ] using ih n a as h d

theorem runWaves_nil (ids : List String) (i : Nat) :
    runWaves ids [] i = ([], i) := rfl

theorem runWaves_cons_of_lt {ids : List String} {i : Nat} (b : Nat) (bs : List Nat)
    (hi : i < ids.length) :
    runWaves ids (b :: bs) i =
      (waveBatch ids i b :: (runWaves ids bs (i + waveBatchSize b)).1,
        (runWaves ids bs (i + waveBatchSize b)).2) := by
  simp [runWaves, hi]

theorem runWaves_cons_of_ge {ids : List String} {i : Nat} (b : Nat) (bs : List Nat)
    (hi : ¬ i < ids.length) :
    runWaves ids (b :: bs) i = ([], i) := by
  simp [runWaves, hi]

theorem runWaves_complete (ids : List String) :
    ∀ (budgets : List Nat) (i : Nat),
      (∀ b ∈ budgets, 1 ≤ b) → ids.length - i ≤ budgets.length →
      (runWaves ids budgets i).1.join = ids.drop i ∧
      ids.length ≤ (runWaves ids budgets i).2 := by
  intro budgets
  induction budgets with
  | nil =>
    intro i hpos hlen
    rw [runWaves_nil]
    simp only [List.length_nil] at hlen
    constructor
    · rw [List.drop_eq_nil_of_le (by omega : ids.length ≤ i)]
      simp
    · omega
  | cons b bs ih =>
    intro i hpos hlen
    by_cases hi : i < ids.length
    · have hb : 1 ≤ b := hpos b (by simp)
      have hk : 1 ≤ waveBatchSize b := le_min hb (by norm_num [maxBatchSize])
      have hrec := ih (i + waveBatchSize b)
        (fun x hx => hpos x (by simp [hx]))
        (by simp only [List.length_cons] at hlen; omega)
      rw [runWaves_cons_of_lt b bs hi]
      constructor
      · simp only [List.join_cons, hrec.1]
        unfold waveBatch
        rw [← List.drop_drop]
        exact List.take_append_drop _ _
      · exact hrec.2
    · rw [runWaves_cons_of_ge b bs hi]
      constructor
      · rw [List.drop_eq_nil_of_le (by omega : ids.length ≤ i)]
        simp
      · omega

/-- C1 (amended): each wave's batch size is `min(remaining, 60)` — so at
most the remaining observed at wave start and at most `maxBatchSize` — but
the probe's result is NOT re-used for the cursor index: the batch's first
launched identifier is again `marketplaceIDs[i]`, so the wave's total
external calls are `batchSize + 1`, bounded by `remaining + 1` rather than
by `remaining`. -/
theorem C1_wave_budget (ids : List String) (i b : Nat) :
    waveBatchSize b ≤ b ∧ waveBatchSize b ≤ maxBatchSize ∧
    (waveFetches ids i b).length = (waveBatch ids i b).length + 1 ∧
    (waveFetches ids i b).length ≤ b + 1 ∧
    (i < ids.length → 1 ≤ b →
      (waveBatch ids i b).head? = some (ids.getD i "")) := by
  refine ⟨min_le_left _ _, min_le_right _ _, by simp [waveFetches], ?_, ?_⟩
  · have hlen : (waveBatch ids i b).length ≤ b := by
      unfold waveBatch
      calc ((ids.drop i).take (waveBatchSize b)).length
          ≤ waveBatchSize b := by
            rw [List.length_take]
            exact min_le_left _ _
        _ ≤ b := min_le_left _ _
    simp only [waveFetches, List.length_cons]
    omega
  · intro hi hb
    have hk : 1 ≤ waveBatchSize b := le_min hb (by norm_num [maxBatchSize])
    unfold waveBatch
    cases hd : ids.drop i with
    | nil =>
      exfalso
      have hlen := congrArg List.length hd
      rw [List.length_drop] at hlen
      simp only [List.length_nil] at hlen
      omega
    | cons a as =>
      obtain ⟨k, hk2⟩ : ∃ k, waveBatchSize b = k + 1 := ⟨waveBatchSize b - 1, by omega⟩
      rw [hk2, List.take_succ_cons, List.head?_cons]
      rw [getD_of_drop_cons ids i a as hd]

/-- Witness for C1: a concrete wave at cursor 0 with remaining budget 2: the
batch size respects the cap and the batch re-launches the probe's identifier. -/
theorem C1_wave_budget_witness :
    waveBatchSize 2 ≤ 2 ∧
    (waveBatch ["a", "b", "c"] 0 2).head? = some (["a", "b", "c"].getD 0 "") :=
  ⟨(C1_wave_budget ["a", "b", "c"] 0 2).1,
    (C1_wave_budget ["a", "b", "c"] 0 2).2.2.2.2 (by decide) (by decide)⟩

/-- C1 counterexample: at cursor 0 with remaining budget 2 the wave launches
`["a", "a", "b"]` — the probe's identifier is fetched twice (its result is
not re-used), and the wave makes 3 external calls, exceeding the remaining
value 2 observed at the wave's start. -/
theorem C1_probe_counterexample :
    waveFetches ["a", "b", "c"] 0 2 = ["a", "a", "b"] ∧
    ¬((waveFetches ["a", "b", "c"] 0 2).length ≤ 2) := by decide

/-- C2 (amended): whenever every observed rate budget is at least 1 and at
least as many budgets are observed as there are identifiers, the wave loop
reaches the termination condition `i ≥ total`, and the waves' slices
partition the identifier list — their concatenation is exactly the list, so
each identifier is attempted exactly once at the batch level.  (With a
zero-remaining budget the cursor does not advance; see the counterexample.) -/
theorem C2_waves_partition (ids : List String) (budgets : List Nat)
    (hpos : ∀ b ∈ budgets, 1 ≤ b) (hlen : ids.length ≤ budgets.length) :
    (runWaves ids budgets 0).1.join = ids ∧
    ids.length ≤ (runWaves ids budgets 0).2 := by
  have h := runWaves_complete ids budgets 0 hpos (by omega)
  simpa using h

/-- Witness for C2: three identifiers fetched across two waves of budget 2. -/
theorem C2_waves_partition_witness :
    (runWaves ["r1", "r2", "r3"] [2, 2, 2] 0).1.join = ["r1", "r2", "r3"] ∧
    (3 : Nat) ≤ (runWaves ["r1", "r2", "r3"] [2, 2, 2] 0).2 := by
  have h := C2_waves_partition ["r1", "r2", "r3"] [2, 2, 2]
    (by decide) (by decide)
  simpa using h

/-- C2 counterexample: with observed budgets all zero the cursor never
advances — after five zero-budget waves no identifier has been sliced into
any batch and the cursor is still 0, short of the total 1: the loop does not
terminate and the identifier is never attempted. -/
theorem C2_zero_budget_counterexample :
    (runWaves ["r1"] [0, 0, 0, 0, 0] 0).1.join = [] ∧
    (runWaves ["r1"] [0, 0, 0, 0, 0] 0).2 = 0 := by decide

/-! ### Retrying fetcher (`fetchWithRetry`) -/

/-- A remote response; only the status matters for the retry logic. -/
structure HttpResponse where
  status : Nat
deriving DecidableEq, Repr

/-- `response.ok`: status in the 2xx range. -/
def respOk (r : HttpResponse) : Bool := decide (200 ≤ r.status ∧ r.status ≤ 299)

/-- One attempt's outcome at the transport level: a response (any status) or
a thrown transport error. -/
inductive FetchOutcome where
  | resp (r : HttpResponse)
  | err (msg : String)
deriving DecidableEq, Repr

/-- The error thrown for a non-ok response: `HTTP error! status: ...`. -/
def httpErrorMsg (status : Nat) : String :=
  "HTTP error! status: " ++ toString status

/-- Whether an attempt outcome takes the catch path (a thrown transport
error, or any non-2xx response). -/
def isFailure : FetchOutcome → Bool
  | .resp r => !respOk r
  | .err _ => true

/-- The error message produced by a failing outcome. -/
def failMsg : FetchOutcome → String
  | .resp r => httpErrorMsg r.status
  | .err m => m

/-- Trace of one `fetchWithRetry` call: the returned value (`Except.error`
models a propagated throw; `Except.ok none` models falling off the loop
without returning), the number of attempts made, and the delays waited
between consecutive attempts. -/
structure RetryTrace where
  result : Except String (Option HttpResponse)
  attempts : Nat
  waits : List Nat
deriving Repr

/-- The retry loop: `attempt` is the current index, the second argument the
remaining iterations.  A 2xx response returns; otherwise if
`attempt < retries - 1` the loop waits `delay` and retries, else the final
error is rethrown. -/
def retryGo (oracle : Nat → FetchOutcome) (retries delay : Nat) :
    Nat → Nat → RetryTrace
  | attempt, 0 => ⟨.ok none, attempt, []⟩
  | attempt, fuel + 1 =>
    match oracle attempt with
    | .resp r =>
      if respOk r then ⟨.ok (some r), attempt + 1, []⟩
      else if attempt < retries - 1 then
        let t := retryGo oracle retries delay (attempt + 1) fuel
        ⟨t.result, t.attempts, delay :: t.waits⟩
      else ⟨.error (httpErrorMsg r.status), attempt + 1, []⟩
    | .err m =>
      if attempt < retries - 1 then
        let t := retryGo oracle retries delay (attempt + 1) fuel
        ⟨t.result, t.attempts, delay :: t.waits⟩
      else ⟨.error m, attempt + 1, []⟩

/-- `fetchWithRetry(url, options, retries, delay)`, the remote modelled by
`oracle` giving each attempt index's outcome. -/
def fetchWithRetry (oracle : Nat → FetchOutcome) (retries delay : Nat) : RetryTrace :=
  retryGo oracle retries delay 0 retries

theorem retryGo_ok {o : Nat → FetchOutcome} {retries delay attempt fuel : Nat}
    {r : HttpResponse} (ho : o attempt = .resp r) (hok : respOk r = true) :
    retryGo o retries delay attempt (fuel + 1) = ⟨.ok (some r), attempt + 1, []⟩ := by
  simp [retryGo, ho, hok]

theorem retryGo_fail_step {o : Nat → FetchOutcome} {retries delay attempt fuel : Nat}
    (hf : isFailure (o attempt) = true) (hlt : attempt < retries - 1) :
    retryGo o retries delay attempt (fuel + 1) =
      ⟨(retryGo o retries delay (attempt + 1) fuel).result,
        (retryGo o retries delay (attempt + 1) fuel).attempts,
        delay :: (retryGo o retries delay (attempt + 1) fuel).waits⟩ := by
  cases ho : o attempt with
  | resp r =>
    have hr : respOk r = false := by simpa [isFailure, ho] using hf
    simp [retryGo, ho, hr, hlt]
  | err m => simp [retryGo, ho, hlt]

theorem retryGo_fail_last {o : Nat → FetchOutcome} {retries delay attempt fuel : Nat}
    (hf : isFailure (o attempt) = true) (hge : ¬ attempt < retries - 1) :
    retryGo o retries delay attempt (fuel + 1) =
      ⟨.error (failMsg (o attempt)), attempt + 1, []⟩ := by
  cases ho : o attempt with
  | resp r =>
    have hr : respOk r = false := by simpa [isFailure, ho] using hf
    simp [retryGo, ho, hr, hge, failMsg]
  | err m => simp [retryGo, ho, hge, failMsg]

/-- C5: with `retries = 3`: a remote failing on attempts 0 and 1 and
returning a 2xx response on attempt 2 yields that response after exactly 3
attempts, with the fixed `delay` waited between consecutive attempts; a
remote failing on all three attempts ends after exactly 3 attempts with the
final attempt's error propagated; and any non-2xx status counts as a
failure. -/
theorem C5_retry_behavior (o : Nat → FetchOutcome) (d : Nat) :
    (∀ r : HttpResponse, ¬(200 ≤ r.status ∧ r.status ≤ 299) →
      isFailure (.resp r) = true) ∧
    (isFailure (o 0) = true → isFailure (o 1) = true →
      ∀ r, o 2 = .resp r → respOk r = true →
        fetchWithRetry o 3 d = ⟨.ok (some r), 3, [d, d]⟩) ∧
    ((∀ n, n < 3 → isFailure (o n) = true) →
      fetchWithRetry o 3 d = ⟨.error (failMsg (o 2)), 3, [d, d]⟩) := by
  refine ⟨?_, ?_, ?_⟩
  · intro r hr
    simp [isFailure, respOk, hr]
  · intro h0 h1 r h2 hok
    unfold fetchWithRetry
    rw [show (3 : Nat) = 2 + 1 from rfl, retryGo_fail_step h0 (by norm_num),
      retryGo_fail_step h1 (by norm_num), retryGo_ok h2 hok]
  · intro h
    unfold fetchWithRetry
    rw [show (3 : Nat) = 2 + 1 from rfl,
      retryGo_fail_step (h 0 (by norm_num)) (by norm_num),
      retryGo_fail_step (h 1 (by norm_num)) (by norm_num),
      retryGo_fail_last (h 2 (by norm_num)) (by norm_num)]

/-- Witness for C5: a remote failing twice then returning status 200
succeeds after exactly 3 attempts with two fixed waits. -/
theorem C5_retry_behavior_witness :
    fetchWithRetry (fun n => if n < 2 then .err "boom" else .resp ⟨200⟩) 3 7
      = ⟨.ok (some ⟨200⟩), 3, [7, 7]⟩ :=
  (C5_retry_behavior (fun n => if n < 2 then .err "boom" else .resp ⟨200⟩) 7).2.1
    (by decide) (by decide) ⟨200⟩ (by decide) (by decide)

/-! ### Orchestration (`main`) and the global accumulator -/

/-- The object returned by `main` when the environment check passes. -/
structure MainResult where
  results : List Listing
  discogsSuccess : Bool
  bandcampSuccess : Bool
deriving DecidableEq, Repr

/-- `main(dgsUsername, bandcampUsername)` with its observable inputs made
explicit: `envOk` is `checkForEnvironmentVariables()`; each adapter task is
described by the listings it pushed into `listingData` before settling
(`pushedD`, `pushedB`, concatenated as one interleaving) and its success
flag (false when it threw).  With the environment check failing, `main`
returns without a value (modelled as `none`) and performs no network
activity; with both flags false it returns empty results; otherwise it
sorts, dedupes and trims the accumulated listings. -/
def mainRun (envOk : Bool) (pushedD : List Listing) (okD : Bool)
    (pushedB : List Listing) (okB : Bool) : Option MainResult :=
  if envOk then
    if okD || okB then
      some ⟨rankPipeline (pushedD ++ pushedB), okD, okB⟩
    else some ⟨[], okD, okB⟩
  else none

/-- The same orchestration with the process-global `listingData` accumulator
explicit: the module-level `let listingData = []` persists across calls to
`main`, which never resets it; pushes append to whatever is already there;
`sortByPrice` sorts the global in place.  Returns the new global state
alongside the result. -/
def mainStateful (listingData : List Listing) (envOk : Bool)
    (pushedD : List Listing) (okD : Bool) (pushedB : List Listing) (okB : Bool) :
    List Listing × Option MainResult :=
  if envOk then
    let data := listingData ++ pushedD ++ pushedB
    if okD || okB then
      (sortByPrice data,
        some ⟨trimResults (removeDuplicates (sortByPrice data)), okD, okB⟩)
    else (data, some ⟨[], okD, okB⟩)
  else (listingData, none)

/-- C6 (amended): when the required configuration is absent the trigger
performs no work but also returns no result object at all (undefined, not a
results-plus-flags object); when configuration is present it always returns
a result carrying both per-source success flags; and when one adapter fails
having contributed nothing while the other produced listings, the failing
flag is false, the surviving flag true, and the results are the surviving
adapter's listings deduped and ranked. -/
theorem C6_trigger_result (pushedD : List Listing) (okD : Bool)
    (pushedB : List Listing) (okB : Bool) :
    mainRun false pushedD okD pushedB okB = none ∧
    (∃ r : MainResult, mainRun true pushedD okD pushedB okB = some r ∧
      r.discogsSuccess = okD ∧ r.bandcampSuccess = okB) ∧
    (okD = false → okB = true → pushedD = [] →
      mainRun true pushedD okD pushedB okB
        = some ⟨rankPipeline pushedB, false, true⟩) := by
  refine ⟨rfl, ?_, ?_⟩
  · by_cases h : (okD || okB) = true
    · exact ⟨⟨rankPipeline (pushedD ++ pushedB), okD, okB⟩, by simp [mainRun, h], rfl, rfl⟩
    · exact ⟨⟨[], okD, okB⟩, by simp [mainRun, h], rfl, rfl⟩
  · intro hD hB hP
    subst hD
    subst hB
    subst hP
    simp [mainRun]

/-- Witness for C6: Discogs fails with nothing pushed, Bandcamp returns one
listing: flags are (false, true) and the results are just that listing. -/
theorem C6_trigger_result_witness :
    mainRun true [] false [exB] true = some ⟨[exB], false, true⟩ := by
  have h := (C6_trigger_result [] false [exB] true).2.2 rfl rfl rfl
  have h2 : rankPipeline [exB] = [exB] := by decide
  rw [h, h2]

/-- C6 counterexample: with a required environment variable missing, the
trigger returns no result object — no results list, no success flags —
refuting the claim that every invocation returns such a result. -/
theorem C6_missing_config_counterexample :
    mainRun false [] true [] true = none := rfl

/-- C7: the code contradicts the isolated-accumulator requirement:
`listingData` is a process-wide global that `main` never resets, so a second
invocation starts from the first invocation's accumulated state.  Here run 2
receives only `exB`, yet its results still contain run 1's listing `exA`;
an isolated invocation over `exB` alone returns `[exB]`. -/
theorem C7_shared_accumulator :
    (mainStateful (mainStateful [] true [exA] true [] true).1
        true [exB] true [] true).2
      = some ⟨[exB, exA], true, true⟩ ∧
    mainRun true [exB] true [] true = some ⟨[exB], true, true⟩ := by decide

/-! ### Bandcamp adapter (`fetchBandcampAlbumDetails`) -/

/-- A wishlist entry `{title, artist, link}`. -/
structure BandcampAlbum where
  title : String
  artist : String
  link : String
deriving DecidableEq, Repr

/-- A scraped price text such as "€15": its leading currency symbol
(`priceText[0]`) and its numeric part (`parseFloat(priceText.slice(1))`). -/
structure PriceText where
  symbol : Char
  amount : ℚ
deriving DecidableEq, Repr

/-- The scraped album page: the Sold Out marker, the price text, and the
album art URL. -/
structure BandcampPage where
  soldOut : Bool
  priceText : PriceText
  imageUrl : Option String
deriving DecidableEq, Repr

/-- Currency detection by the price text's leading symbol. -/
def currencyFor (symbol : Char) : String :=
  if symbol = '$' then "USD"
  else if symbol = '€' then "EUR"
  else if symbol = '£' then "GBP"
  else ""

/-- `fetchBandcampAlbumDetails(album)`: sold-out pages yield nothing;
otherwise `rate` starts at 10000 and is overwritten only when the
currency-rate lookup succeeds (`rateLookup` returns the AUD rate for the
detected base currency, `none` on failure), and the listing is emitted with
`condition = sleeve_condition = "New"`. -/
def fetchBandcampAlbumDetails (album : BandcampAlbum) (page : BandcampPage)
    (rateLookup : String → Option ℚ) : Option Listing :=
  if page.soldOut then none
  else
    let base_currency := currencyFor page.priceText.symbol
    let rate := (rateLookup base_currency).getD 10000
    some ⟨album.title ++ " by " ++ album.artist, page.priceText.amount * rate,
      "New", "New", album.link, page.imageUrl⟩

/-- C8: for a non-sold-out page whose price text begins with €, when the
rate lookup fails the resulting listing's price is the numeric part of the
price text multiplied by the fallback rate 10000, and both condition fields
are "New". -/
theorem C8_fallback_rate (album : BandcampAlbum) (page : BandcampPage)
    (hs : page.soldOut = false) (hsym : page.priceText.symbol = '€') :
    fetchBandcampAlbumDetails album page (fun _ => none)
      = some ⟨album.title ++ " by " ++ album.artist,
          page.priceText.amount * 10000, "New", "New", album.link, page.imageUrl⟩ := by
  simp [fetchBandcampAlbumDetails, hs]

/-- Witness for C8: price text "€15" with a failing rate lookup yields price
15 * 10000 = 150000. -/
theorem C8_fallback_rate_witness :
    fetchBandcampAlbumDetails ⟨"T", "A", "L"⟩ ⟨false, ⟨'€', 15⟩, none⟩ (fun _ => none)
      = some ⟨"T by A", 150000, "New", "New", "L", none⟩ := by
  have h := C8_fallback_rate ⟨"T", "A", "L"⟩ ⟨false, ⟨'€', 15⟩, none⟩ rfl rfl
  rw [h]
  norm_num [show "T" ++ " by " ++ "A" = "T by A" from rfl]

/-! ### Progress events (`updateProgress` and the fixed-percent sends) -/

/-- A percent-carrying SSE send: either a fixed announced percent, or an
`updateProgress` step whose percent depends on the shared step counter. -/
inductive PEvent where
  | fixedPct (p : ℤ)
  | update
deriving DecidableEq, Repr

/-- `Math.round`, exact on rationals: round half toward positive infinity. -/
def jsRound (q : ℚ) : ℤ := ⌊q + 1 / 2⌋

theorem jsRound_intCast (z : ℤ) : jsRound ((z : ℤ) : ℚ) = z := by
  unfold jsRound
  rw [Int.floor_int_add]
  have h : ⌊(1 / 2 : ℚ)⌋ = 0 := by
    apply Int.floor_eq_zero_iff.mpr
    constructor <;> norm_num
  rw [h]
  omega

/-- The percent sent by the `i`-th iteration (0-based) of
`collectMarketplaceIDs` over `n` releases:
`Math.round(((i + 1) / n) * 20) + 40`. -/
def marketPct (n i : Nat) : ℤ := jsRound (((i : ℚ) + 1) / (n : ℚ) * 20) + 40

/-- All percents sent by `collectMarketplaceIDs` over `n` releases. -/
def marketPcts (n : Nat) : List ℤ := (List.range n).map (marketPct n)

/-- The percent sent by `updateProgress` when `completedSteps` has become
`k`: `Math.round((k / totalSteps) * 100)` with `totalSteps = 5`. -/
def stepPct (k : Nat) : ℤ := jsRound ((k : ℚ) / 5 * 100)

theorem stepPct_eq (k : Nat) : stepPct k = 20 * k := by
  unfold stepPct
  have h : ((k : ℚ)) / 5 * 100 = ((20 * (k : ℤ) : ℤ) : ℚ) := by
    push_cast
    ring
  rw [h, jsRound_intCast]

/-- The percent-carrying sends of the Discogs task, in program order:
`fetchWantlist` announces 20 then an update step; `collectReleaseIDs`
announces 40 then an update step; `collectMarketplaceIDs` sends its
incremental percents then an update step; `fetchMarketplaceListingData`
sends no percent, then an update step. -/
def discogsStream (n : Nat) : List PEvent :=
  [PEvent.fixedPct 20, PEvent.update, PEvent.fixedPct 40, PEvent.update]
    ++ (marketPcts n).map PEvent.fixedPct ++ [PEvent.update, PEvent.update]

/-- Assign percents to a stream of events, threading the shared
`completedSteps` counter through the `updateProgress` calls. -/
def emitPercents : List PEvent → Nat → List ℤ
  | [], _ => []
  | PEvent.fixedPct p :: es, k => p :: emitPercents es k
  | PEvent.update :: es, k => stepPct (k + 1) :: emitPercents es (k + 1)

/-- Number of `updateProgress` calls in a stream. -/
def countUpdates : List PEvent → Nat
  | [] => 0
  | PEvent.update :: es => countUpdates es + 1
  | PEvent.fixedPct _ :: es => countUpdates es

/-- One full pipeline run over `n` releases: the Bandcamp task's single
update step lands at position `s` of the Discogs stream (each interleaving
of the two concurrent tasks is some `s`), and after both tasks settle the
merge phase performs three more update steps. -/
def runPercents (n s : Nat) : List ℤ :=
  emitPercents
    (((discogsStream n).take s ++ PEvent.update :: (discogsStream n).drop s)
      ++ [PEvent.update, PEvent.update, PEvent.update]) 0

theorem emitPercents_append (xs ys : List PEvent) (k : Nat) :
    emitPercents (xs ++ ys) k
      = emitPercents xs k ++ emitPercents ys (k + countUpdates xs) := by
  induction xs generalizing k with
  | nil => simp [emitPercents, countUpdates]
  | cons e es ih =>
    cases e with
    | fixedPct p => simp [emitPercents, countUpdates, ih]
    | update =>
      simp only [List.cons_append, emitPercents, countUpdates, List.append_eq]
      rw [ih, show k + 1 + countUpdates es = k + (countUpdates es + 1) from by omega]

theorem emitPercents_map_fixed (ps : List ℤ) (k : Nat) :
    emitPercents (ps.map PEvent.fixedPct) k = ps := by
  induction ps with
  | nil => rfl
  | cons p ps ih => simp [emitPercents, ih]

theorem countUpdates_map_fixed (ps : List ℤ) :
    countUpdates (ps.map PEvent.fixedPct) = 0 := by
  induction ps with
  | nil => rfl
  | cons p ps ih => simp [countUpdates, ih]

theorem jsRound_mono {a b : ℚ} (h : a ≤ b) : jsRound a ≤ jsRound b :=
  Int.floor_le_floor (by linarith)

theorem marketPct_lower (n i : Nat) : 40 ≤ marketPct n i := by
  unfold marketPct
  have h0 : (0 : ℤ) ≤ jsRound (((i : ℚ) + 1) / (n : ℚ) * 20) := by
    unfold jsRound
    apply Int.le_floor.mpr
    have hq : (0 : ℚ) ≤ ((i : ℚ) + 1) / (n : ℚ) * 20 := by positivity
    push_cast
    linarith
  omega

theorem marketPct_upper (n i : Nat) (hi : i < n) : marketPct n i ≤ 60 := by
  unfold marketPct
  have h : jsRound (((i : ℚ) + 1) / (n : ℚ) * 20) ≤ 20 := by
    have hnq : (0 : ℚ) < (n : ℚ) := by
      have : 0 < n := by omega
      exact_mod_cast this
    have hle : ((i : ℚ) + 1) / (n : ℚ) ≤ 1 := by
      rw [div_le_one hnq]
      exact_mod_cast Nat.succ_le_of_lt hi
    have hle2 : ((i : ℚ) + 1) / (n : ℚ) * 20 ≤ 20 := by nlinarith
    have h20 : jsRound (20 : ℚ) = 20 := by
      have : ((20 : ℤ) : ℚ) = (20 : ℚ) := by norm_num
      rw [← this, jsRound_intCast]
    calc jsRound (((i : ℚ) + 1) / (n : ℚ) * 20) ≤ jsRound (20 : ℚ) := jsRound_mono hle2
      _ = 20 := h20
  omega

theorem marketPct_mono (n : Nat) {i j : Nat} (h : i ≤ j) :
    marketPct n i ≤ marketPct n j := by
  unfold marketPct
  have hbase : (((i : ℚ) + 1) / (n : ℚ)) ≤ (((j : ℚ) + 1) / (n : ℚ)) := by
    rcases Nat.eq_zero_or_pos n with hn | hn
    · subst hn
      simp
    · have hnq : (0 : ℚ) < (n : ℚ) := by exact_mod_cast hn
      have hij : ((i : ℚ) + 1) ≤ ((j : ℚ) + 1) := by
        have : (i : ℚ) ≤ (j : ℚ) := by exact_mod_cast h
        linarith
      exact (div_le_div_right hnq).mpr hij
  have := jsRound_mono (mul_le_mul_of_nonneg_right hbase (by norm_num : (0 : ℚ) ≤ 20))
  omega

theorem marketPcts_pairwise (n : Nat) : (marketPcts n).Pairwise (· ≤ ·) := by
  unfold marketPcts
  rw [List.pairwise_map]
  exact (List.pairwise_lt_range n).imp (fun h => marketPct_mono n (le_of_lt h))

theorem marketPcts_mem_bounds (n : Nat) {p : ℤ} (hp : p ∈ marketPcts n) :
    40 ≤ p ∧ p ≤ 60 := by
  unfold marketPcts at hp
  obtain ⟨i, hi, rfl⟩ := List.mem_map.mp hp
  rw [List.mem_range] at hi
  exact ⟨marketPct_lower n i, marketPct_upper n i hi⟩

theorem runPercents_bandcamp_last (n : Nat) :
    runPercents n (discogsStream n).length
      = [20, 20, 40, 40] ++ marketPcts n ++ [60, 80, 100, 120, 140, 160] := by
  unfold runPercents
  rw [List.take_length, List.drop_length]
  unfold discogsStream
  simp only [List.append_assoc, List.cons_append, List.nil_append, List.append_nil]
  simp [emitPercents, emitPercents_append, emitPercents_map_fixed,
    countUpdates_map_fixed, countUpdates, stepPct_eq]

/-- C9 (amended): the percent values of a full run form a monotonically
non-decreasing sequence in the interleaving where the Bandcamp task's
progress step completes after all Discogs steps, for every release count;
for other interleavings of the two concurrent tasks this can fail — see the
counterexample. -/
theorem C9_monotone_bandcamp_last (n : Nat) :
    (runPercents n (discogsStream n).length).Pairwise (· ≤ ·) := by
  rw [runPercents_bandcamp_last]
  have htail : ∀ x ∈ ([60, 80, 100, 120, 140, 160] : List ℤ), (60 : ℤ) ≤ x := by decide
  have hhead : ∀ x ∈ ([20, 20, 40, 40] : List ℤ), x ≤ 40 := by decide
  refine List.pairwise_append.mpr ⟨List.pairwise_append.mpr
    ⟨by decide, marketPcts_pairwise n, ?_⟩, by decide, ?_⟩
  · intro a ha p hp
    have h1 := hhead a ha
    have h2 := (marketPcts_mem_bounds n hp).1
    omega
  · intro x hx q hq
    have h2 := htail q hq
    rcases List.mem_append.mp hx with hx | hx
    · have h1 := hhead x hx
      omega
    · have h1 := (marketPcts_mem_bounds n hx).2
      omega

theorem marketPct_ten (i : Nat) : marketPct 10 i = 2 * (i + 1) + 40 := by
  unfold marketPct
  have h : ((i : ℚ) + 1) / ((10 : Nat) : ℚ) * 20 = ((2 * ((i : ℤ) + 1) : ℤ) : ℚ) := by
    push_cast
    ring
  rw [h, jsRound_intCast]

theorem runPercents_ten_zero :
    runPercents 10 0
      = [20, 20, 40, 40, 60, 42, 44, 46, 48, 50, 52, 54,
          56, 58, 60, 80, 100, 120, 140, 160] := by
  have hr : List.range 10 = [0, 1, 2, 3, 4, 5, 6, 7, 8, 9] := rfl
  have hm : marketPcts 10 = [42, 44, 46, 48, 50, 52, 54, 56, 58, 60] := by
    rw [marketPcts, hr]
    norm_num [marketPct_ten]
  unfold runPercents discogsStream
  rw [hm]
  norm_num [emitPercents, stepPct_eq]

/-- C9 counterexample: in the interleaving where the Bandcamp task's
progress step fires first, the shared step counter makes the third update
report 60% before `collectMarketplaceIDs` begins emitting at 42%, so the
percent sequence of that run decreases. -/
theorem C9_interleaving_counterexample :
    ¬ (runPercents 10 0).Pairwise (· ≤ ·) := by
  rw [runPercents_ten_zero]
  decide
